import Mathlib

/-!
Verification of the seat-lock reservation engine of `src/admin.js`
(eventzone_ftp): shallow embedding of the `/api/locks` endpoints
(`GET /api/locks`, `POST /api/locks/hold`) and of the payment-webhook
promotion fragment, together with theorems settling the specification
claims about them.

Modelling conventions:
* JavaScript numbers that the code treats as integers (seat numbers,
  millisecond timestamps, ttl seconds) are modelled as `Int`.
* The SQL tables `seat_locks` and `done_seatlocks` are lists of rows;
  the composite unique key `(event_id, table_id, seat_no)` of the real
  schema appears as a well-formedness predicate where a proof needs it.
* `NOW()` / `Date.now()` is an explicit `now : Int` parameter
  (milliseconds).
* The generated hold id (`H` + time prefix + random suffix) is
  nondeterministic, so it is an explicit `genId` parameter.
* A JavaScript `holdId` request field that is absent is `none`; a
  present string is `some s` (JS falsiness of `""` is modelled
  faithfully where the code tests it).
* MySQL rejects an `IN ()` clause with an empty list as a syntax
  error; the thrown error is modelled by the `GroupCheck.err` result,
  which the endpoint surfaces as `HoldResult.storeError` (HTTP 500,
  `hold_failed`) after rolling back.
-/

/-- A reservable unit: `{ tableId, seatNo }`, with `seatNo = 0` the
"whole table" sentinel. -/
structure SeatKey where
  tableId : String
  seatNo : Int
deriving DecidableEq, Repr

/-- A row of the `seat_locks` table (temporary holds). -/
structure TempHold where
  event_id : String
  table_id : String
  seat_no : Int
  hold_id : String
  expires_at : Int
  created_at : Int
deriving DecidableEq, Repr

/-- A row of the `done_seatlocks` table (permanent allocations). -/
structure PermAlloc where
  event_id : String
  order_id : Nat
  table_id : String
  seat_no : Int
deriving DecidableEq, Repr

/-- The persistent store: both seat-lock tables. -/
structure Store where
  seat_locks : List TempHold
  done_seatlocks : List PermAlloc
deriving DecidableEq, Repr

/-- `expand` from `GET /api/locks`: a row with `seatNo = 0` becomes the
ten rows with seat numbers 1..10 for the same table; other rows pass
through. -/
def expand (rows : List SeatKey) : List SeatKey :=
  rows.flatMap fun r =>
    if r.seatNo = 0 then
      (List.range 10).map fun (i : Nat) => (⟨r.tableId, (i : Int) + 1⟩ : SeatKey)
    else
      [r]

/-- `GET /api/locks`: delete every expired `seat_locks` row
(`expires_at < NOW()`), then return the expanded union of the
unexpired temporary holds and the permanent allocations for event
`'default'`. Returns the post-sweep store and the response list. -/
def listActive (st : Store) (now : Int) : Store × List SeatKey :=
  let swept := st.seat_locks.filter fun r => !(r.expires_at < now)
  let temp := (swept.filter fun r =>
      r.event_id == "default" && now < r.expires_at).map
      fun r => (⟨r.table_id, r.seat_no⟩ : SeatKey)
  let paid := (st.done_seatlocks.filter fun p =>
      p.event_id == "default").map
      fun p => (⟨p.table_id, p.seat_no⟩ : SeatKey)
  ({ st with seat_locks := swept }, expand temp ++ expand paid)

/-- First-occurrence order of table ids, as produced by iterating the
insertion-ordered JS `Map` built from the request. -/
def tablesIn (seats : List SeatKey) : List String :=
  seats.foldl (fun acc s => if s.tableId ∈ acc then acc else acc ++ [s.tableId]) []

/-- The seat numbers requested for one table, in request order. -/
def seatNumsFor (t : String) (seats : List SeatKey) : List Int :=
  (seats.filter fun s => s.tableId == t).map fun s => s.seatNo

/-- Insert into a strictly ascending list, dropping duplicates. -/
def insDedup (n : Int) : List Int → List Int
  | [] => [n]
  | m :: ms =>
    if n < m then n :: m :: ms
    else if n = m then m :: ms
    else m :: insDedup n ms

/-- `Array.from(new Set(arr)).sort((a,b) => a-b)`: the ascending list
of the distinct elements. -/
def sortedDedup (l : List Int) : List Int :=
  l.foldr insDedup []

/-- One normalized per-table group of a hold request. `full = true`
models `mode: "full"` (stored as the single sentinel seat 0). -/
structure HoldGroup where
  tableId : String
  full : Bool
  seats : List Int
deriving DecidableEq, Repr

/-- The literal `1..10` comparison list used by the full-table test
(`nums.length === 10 && nums.every((x, i) => x === i + 1)`). -/
def seq1to10 : List Int := [1, 2, 3, 4, 5, 6, 7, 8, 9, 10]

/-- The group built for one table: `nums` is the deduplicated sorted
seat list; `hasZero || (nums.length === 10 && nums.every((x, i) =>
x === i + 1))` makes the table full (seats `[0]`), otherwise the
positive seats are kept. -/
def groupFor (t : String) (seats : List SeatKey) : HoldGroup :=
  let nums := sortedDedup (seatNumsFor t seats)
  if (0 : Int) ∈ nums ∨ nums = seq1to10 then
    ⟨t, true, [0]⟩
  else
    ⟨t, false, nums.filter fun n => 0 < n⟩

/-- `normalizeGroups` from `POST /api/locks/hold`: one group per
requested table, in first-occurrence order. -/
def normalizeGroups (seats : List SeatKey) : List HoldGroup :=
  (tablesIn seats).map fun t => groupFor t seats

/-- `r.hold_id !== holdId` in the full-table temp check: an absent
request holdId differs from every row's hold id. -/
def holdDiffFull (o : Option String) (h : String) : Bool :=
  match o with
  | none => true
  | some s => h != s

/-- `!holdId || r.holdId !== holdId` in the partial temp check: an
absent or empty request holdId lets every row conflict. -/
def holdDiffPart (o : Option String) (h : String) : Bool :=
  match o with
  | none => true
  | some s => s == "" || h != s

/-- Outcome of the conflict check of one group. -/
inductive GroupCheck where
  | ok : GroupCheck
  | sold : List SeatKey → GroupCheck
  | held : List SeatKey → GroupCheck
  | err : GroupCheck
deriving DecidableEq, Repr

/-- The conflict check `POST /api/locks/hold` runs for one group, for
event `'default'`, against the store at time `now`, with the caller's
(optional) `holdId`.  A full group conflicts on any `done_seatlocks`
row for the table, else on any unexpired `seat_locks` row for the
table under a different hold id.  A partial group builds an
`IN (...)` pair list from its seats — empty seats make the SQL
malformed (`err`) — and conflicts on a `done_seatlocks` row at seat 0
or at a requested seat, else on such an unexpired `seat_locks` row
whose hold id differs. -/
def checkGroup (st : Store) (now : Int) (o : Option String) (g : HoldGroup) : GroupCheck :=
  if g.full then
    let paidAny := st.done_seatlocks.filter fun p =>
      p.event_id == "default" && p.table_id == g.tableId
    if !paidAny.isEmpty then
      .sold [⟨g.tableId, 0⟩]
    else
      let tmpAny := st.seat_locks.filter fun r =>
        r.event_id == "default" && r.table_id == g.tableId && now < r.expires_at
      if tmpAny.any fun r => holdDiffFull o r.hold_id then
        .held [⟨g.tableId, 0⟩]
      else
        .ok
  else
    if g.seats.isEmpty then
      .err
    else
      let paidRows := st.done_seatlocks.filter fun p =>
        p.event_id == "default" &&
          ((p.table_id == g.tableId && p.seat_no == 0) ||
            (p.table_id == g.tableId && g.seats.contains p.seat_no))
      if !paidRows.isEmpty then
        .sold (paidRows.map fun p => ⟨p.table_id, p.seat_no⟩)
      else
        let tmpRows := st.seat_locks.filter fun r =>
          r.event_id == "default" && now < r.expires_at &&
            ((r.table_id == g.tableId && r.seat_no == 0) ||
              (r.table_id == g.tableId && g.seats.contains r.seat_no))
        let conflicts := tmpRows.filter fun r => holdDiffPart o r.hold_id
        if !conflicts.isEmpty then
          .held (conflicts.map fun r => ⟨r.table_id, r.seat_no⟩)
        else
          .ok

/-- The conflict loop: groups are checked in order and the first
non-ok outcome is returned at once (the endpoint's early `return`,
respectively the thrown SQL error). -/
def scanGroups (st : Store) (now : Int) (o : Option String) : List HoldGroup → GroupCheck
  | [] => .ok
  | g :: gs =>
    match checkGroup st now o g with
    | .ok => scanGroups st now o gs
    | r => r

/-- The composite unique key of both lock tables. -/
def sameKey (a b : TempHold) : Bool :=
  a.event_id == b.event_id && a.table_id == b.table_id && a.seat_no == b.seat_no

/-- `INSERT ... ON DUPLICATE KEY UPDATE hold_id=VALUES(hold_id),
expires_at=VALUES(expires_at)`: replace the hold id and expiry of the
row at the same key, or append a fresh row. -/
def upsertLock (locks : List TempHold) (row : TempHold) : List TempHold :=
  if locks.any (sameKey row) then
    locks.map fun r =>
      if sameKey row r then
        { r with hold_id := row.hold_id, expires_at := row.expires_at }
      else r
  else
    locks ++ [row]

/-- The write phase of `POST /api/locks/hold`: one upsert at seat 0
per full group, one per seat of each partial group, all with the same
hold id and expiry. -/
def writeGroups (locks : List TempHold) (groups : List HoldGroup)
    (hid : String) (expMs now : Int) : List TempHold :=
  groups.foldl
    (fun acc g =>
      if g.full then
        upsertLock acc ⟨"default", g.tableId, 0, hid, expMs, now⟩
      else
        g.seats.foldl
          (fun acc2 n => upsertLock acc2 ⟨"default", g.tableId, n, hid, expMs, now⟩)
          acc)
    locks

/-- The seat keys of the response (and of the written rows): seat 0
for a full group, each seat for a partial group. -/
def resolvedKeys (groups : List HoldGroup) : List SeatKey :=
  groups.flatMap fun g =>
    if g.full then [⟨g.tableId, 0⟩]
    else g.seats.map fun n => ⟨g.tableId, n⟩

/-- `newHoldId = holdId || generated`: a missing or empty (falsy)
request holdId is replaced by the generated one. -/
def effHoldId (o : Option String) (genId : String) : String :=
  match o with
  | none => genId
  | some h => if h = "" then genId else h

/-- The externally visible outcome of `POST /api/locks/hold`. -/
inductive HoldResult where
  | validationError : String → HoldResult
  | conflictSold : List SeatKey → HoldResult
  | conflictHeld : List SeatKey → HoldResult
  | storeError : HoldResult
  | success : String → List SeatKey → Int → HoldResult
deriving DecidableEq, Repr

/-- `POST /api/locks/hold`: validate (`seats` non-empty, `ttlSec`
positive — HTTP 422 before any store access), normalize, check every
group (first conflict aborts: 409 sold / 409 held; malformed SQL
aborts: 500), else upsert every resolved seat key with the effective
hold id and `expires_at = now + ttlSec*1000` and answer 200 with the
hold id, the resolved keys and the expiry in epoch seconds.  The
returned store reflects the committed (or rolled back) state. -/
def requestHold (st : Store) (now : Int) (seats : List SeatKey)
    (ttlSec : Int) (holdId : Option String) (genId : String) :
    HoldResult × Store :=
  if seats.isEmpty then
    (.validationError "seats[] required", st)
  else if ttlSec ≤ 0 then
    (.validationError "ttlSec invalid", st)
  else
    let newHoldId := effHoldId holdId genId
    let expMs := now + ttlSec * 1000
    let groups := normalizeGroups seats
    match scanGroups st now holdId groups with
    | .sold cs => (.conflictSold cs, st)
    | .held cs => (.conflictHeld cs, st)
    | .err => (.storeError, st)
    | .ok =>
      (.success newHoldId (resolvedKeys groups) (expMs / 1000),
        { st with seat_locks := writeGroups st.seat_locks groups newHoldId expMs now })

/-- An `order_items` row, as far as the webhook's lock logic reads
it: `item_type`, nullable `table_id`, nullable `seat_no`. -/
structure OrderItem where
  item_type : String
  table_id : Option String
  seat_no : Option Int
deriving DecidableEq, Repr

/-- `it.item_type === "seat" && it.table_id && it.seat_no != null`. -/
def isSeatItem (it : OrderItem) : Bool :=
  it.item_type == "seat" &&
    (match it.table_id with | some t => t != "" | none => false) &&
    it.seat_no.isSome

/-- `it.item_type === "vipTable" && it.table_id`. -/
def isVipItem (it : OrderItem) : Bool :=
  it.item_type == "vipTable" &&
    (match it.table_id with | some t => t != "" | none => false)

/-- `INSERT INTO done_seatlocks ... ON DUPLICATE KEY UPDATE
event_id = VALUES(event_id)`: a row already present at the key
`('default', t, n)` leaves the table unchanged (the update writes the
same event id back), otherwise a fresh row is appended. -/
def insertDone (perms : List PermAlloc) (oid : Nat) (t : String) (n : Int) :
    List PermAlloc :=
  if perms.any fun p => p.event_id == "default" && p.table_id == t && p.seat_no == n then
    perms
  else
    perms ++ [⟨"default", oid, t, n⟩]

/-- The item loop of the webhook, restricted to its `done_seatlocks`
writes: one insert per seat item, in order. -/
def seatPhase (perms : List PermAlloc) (oid : Nat) (items : List OrderItem) :
    List PermAlloc :=
  items.foldl
    (fun acc it =>
      if isSeatItem it then
        insertDone acc oid (it.table_id.getD "") (it.seat_no.getD 0)
      else acc)
    perms

/-- The vip-table loop of the webhook: one insert at seat 0 per
collected table id. -/
def vipPhase (perms : List PermAlloc) (oid : Nat) (vips : List String) :
    List PermAlloc :=
  vips.foldl (fun acc t => insertDone acc oid t 0) perms

/-- The lock fragment of the successful-payment webhook: insert a
`done_seatlocks` row per seat item as the item loop runs, then one at
seat 0 per collected vip table, then delete every `seat_locks` row
with the order's hold id (when the order has a truthy one). -/
def promote (st : Store) (oid : Nat) (hold : Option String)
    (items : List OrderItem) : Store :=
  let perms1 := seatPhase st.done_seatlocks oid items
  let vips := (items.filter isVipItem).map fun it => it.table_id.getD ""
  let perms2 := vipPhase perms1 oid vips
  let locks :=
    match hold with
    | some h => if h = "" then st.seat_locks else st.seat_locks.filter fun r => r.hold_id != h
    | none => st.seat_locks
  { seat_locks := locks, done_seatlocks := perms2 }

/-! ## Helper lemmas about the seat-key model -/

theorem mem_insDedup {m n : Int} : ∀ {l : List Int}, m ∈ insDedup n l ↔ m = n ∨ m ∈ l := by
  intro l
  induction l with
  | nil => simp [insDedup]
  | cons a l ih =>
    by_cases h1 : n < a
    · simp [insDedup, h1]
    · by_cases h2 : n = a
      · subst h2
        have hd : insDedup n (n :: l) = n :: l := by simp [insDedup]
        rw [hd]
        simp only [List.mem_cons]
        tauto
      · simp only [insDedup, if_neg h1, if_neg h2, List.mem_cons, ih]
        tauto

theorem sorted_insDedup {n : Int} : ∀ {l : List Int},
    l.Sorted (· < ·) → (insDedup n l).Sorted (· < ·) := by
  intro l
  induction l with
  | nil => simp [insDedup]
  | cons a l ih =>
    intro h
    rw [List.sorted_cons] at h
    obtain ⟨ha, hl⟩ := h
    by_cases h1 : n < a
    · simp only [insDedup, if_pos h1]
      rw [List.sorted_cons]
      refine ⟨?_, ?_⟩
      · intro b hb
        rcases List.mem_cons.mp hb with rfl | hb
        · exact h1
        · exact lt_trans h1 (ha b hb)
      · rw [List.sorted_cons]; exact ⟨ha, hl⟩
    · by_cases h2 : n = a
      · simp only [insDedup, if_neg h1, if_pos h2]
        rw [List.sorted_cons]; exact ⟨ha, hl⟩
      · simp only [insDedup, if_neg h1, if_neg h2]
        rw [List.sorted_cons]
        refine ⟨?_, ih hl⟩
        intro b hb
        rcases mem_insDedup.mp hb with rfl | hb
        · omega
        · exact ha b hb

theorem sorted_sortedDedup : ∀ (l : List Int), (sortedDedup l).Sorted (· < ·) := by
  intro l
  induction l with
  | nil => simp [sortedDedup]
  | cons a l ih => exact sorted_insDedup ih

theorem mem_sortedDedup {m : Int} : ∀ {l : List Int}, m ∈ sortedDedup l ↔ m ∈ l := by
  intro l
  induction l with
  | nil => simp [sortedDedup]
  | cons a l ih =>
    show m ∈ insDedup a (sortedDedup l) ↔ _
    rw [mem_insDedup, ih]
    simp

theorem sorted_eq_of_mem_iff : ∀ {l1 l2 : List Int},
    l1.Sorted (· < ·) → l2.Sorted (· < ·) → (∀ n, n ∈ l1 ↔ n ∈ l2) → l1 = l2 := by
  intro l1
  induction l1 with
  | nil =>
    intro l2 _ _ h
    cases l2 with
    | nil => rfl
    | cons b l2 => exact absurd ((h b).mpr (List.mem_cons_self b l2)) (List.not_mem_nil b)
  | cons a l1 ih =>
    intro l2 s1 s2 h
    cases l2 with
    | nil => exact absurd ((h a).mp (List.mem_cons_self a l1)) (List.not_mem_nil a)
    | cons b l2 =>
      rw [List.sorted_cons] at s1 s2
      have hab : a = b := by
        rcases List.mem_cons.mp ((h a).mp (List.mem_cons_self a l1)) with rfl | ha2
        · rfl
        · rcases List.mem_cons.mp ((h b).mpr (List.mem_cons_self b l2)) with rfl | hb1
          · rfl
          · exact absurd (lt_trans (s1.1 b hb1) (s2.1 a ha2)) (lt_irrefl a)
      subst hab
      have htail : ∀ n, n ∈ l1 ↔ n ∈ l2 := by
        intro n
        constructor
        · intro hn
          rcases List.mem_cons.mp ((h n).mp (List.mem_cons_of_mem a hn)) with rfl | h2
          · exact absurd (s1.1 n hn) (lt_irrefl n)
          · exact h2
        · intro hn
          rcases List.mem_cons.mp ((h n).mpr (List.mem_cons_of_mem a hn)) with rfl | h2
          · exact absurd (s2.1 n hn) (lt_irrefl n)
          · exact h2
      rw [ih s1.2 s2.2 htail]

theorem mem_seq1to10 {n : Int} : n ∈ seq1to10 ↔ 1 ≤ n ∧ n ≤ 10 := by
  simp [seq1to10]
  omega

theorem tablesIn_go {t : String} : ∀ (seats : List SeatKey) (acc : List String),
    t ∈ seats.foldl (fun acc s => if s.tableId ∈ acc then acc else acc ++ [s.tableId]) acc ↔
      t ∈ acc ∨ ∃ s ∈ seats, s.tableId = t := by
  intro seats
  induction seats with
  | nil => simp
  | cons s rest ih =>
    intro acc
    show t ∈ rest.foldl _ (if s.tableId ∈ acc then acc else acc ++ [s.tableId]) ↔ _
    rw [ih]
    by_cases hs : s.tableId ∈ acc
    · simp only [if_pos hs]
      constructor
      · rintro (h | ⟨s', hs', rfl⟩)
        · exact Or.inl h
        · exact Or.inr ⟨s', List.mem_cons_of_mem s hs', rfl⟩
      · rintro (h | ⟨s', hs', rfl⟩)
        · exact Or.inl h
        · rcases List.mem_cons.mp hs' with rfl | h'
          · exact Or.inl hs
          · exact Or.inr ⟨s', h', rfl⟩
    · simp only [if_neg hs, List.mem_append, List.mem_singleton]
      constructor
      · rintro ((h | h) | ⟨s', hs', rfl⟩)
        · exact Or.inl h
        · exact Or.inr ⟨s, List.mem_cons_self s rest, h.symm⟩
        · exact Or.inr ⟨s', List.mem_cons_of_mem s hs', rfl⟩
      · rintro (h | ⟨s', hs', rfl⟩)
        · exact Or.inl (Or.inl h)
        · rcases List.mem_cons.mp hs' with rfl | h'
          · exact Or.inl (Or.inr rfl)
          · exact Or.inr ⟨s', h', rfl⟩

theorem mem_tablesIn {t : String} {seats : List SeatKey} :
    t ∈ tablesIn seats ↔ ∃ s ∈ seats, s.tableId = t := by
  rw [tablesIn, tablesIn_go]
  simp

theorem nodup_tablesIn_go : ∀ (seats : List SeatKey) (acc : List String),
    acc.Nodup →
    (seats.foldl (fun acc s => if s.tableId ∈ acc then acc else acc ++ [s.tableId]) acc).Nodup := by
  intro seats
  induction seats with
  | nil => intro acc h; exact h
  | cons s rest ih =>
    intro acc h
    show (rest.foldl _ (if s.tableId ∈ acc then acc else acc ++ [s.tableId])).Nodup
    by_cases hs : s.tableId ∈ acc
    · rw [if_pos hs]; exact ih acc h
    · rw [if_neg hs]
      refine ih _ ?_
      rw [List.nodup_append]
      exact ⟨h, List.nodup_singleton _, by simpa using hs⟩

theorem nodup_tablesIn (seats : List SeatKey) : (tablesIn seats).Nodup :=
  nodup_tablesIn_go seats [] List.nodup_nil

theorem mem_seatNumsFor {n : Int} {t : String} {seats : List SeatKey} :
    n ∈ seatNumsFor t seats ↔ ∃ s ∈ seats, s.tableId = t ∧ s.seatNo = n := by
  simp only [seatNumsFor, List.mem_map, List.mem_filter, beq_iff_eq]
  tauto

theorem mem_expand {rows : List SeatKey} {k : SeatKey} :
    k ∈ expand rows ↔
      ∃ r ∈ rows,
        (r.seatNo = 0 ∧ k.tableId = r.tableId ∧ 1 ≤ k.seatNo ∧ k.seatNo ≤ 10) ∨
        (r.seatNo ≠ 0 ∧ k = r) := by
  rw [expand, List.mem_flatMap]
  constructor
  · rintro ⟨r, hr, hk⟩
    refine ⟨r, hr, ?_⟩
    by_cases h : r.seatNo = 0
    · rw [if_pos h] at hk
      obtain ⟨i, hi, rfl⟩ := List.mem_map.mp hk
      have hi' := List.mem_range.mp hi
      refine Or.inl ⟨h, rfl, ?_, ?_⟩
      · show (1 : Int) ≤ (i : Int) + 1
        omega
      · show ((i : Int) + 1) ≤ 10
        omega
    · rw [if_neg h] at hk
      have hk' := List.mem_singleton.mp hk
      subst hk'
      exact Or.inr ⟨h, rfl⟩
  · rintro ⟨r, hr, (⟨h0, ht, h1, h10⟩ | ⟨hne, rfl⟩)⟩
    · refine ⟨r, hr, ?_⟩
      rw [if_pos h0]
      refine List.mem_map.mpr ⟨(k.seatNo - 1).toNat, List.mem_range.mpr (by omega), ?_⟩
      cases k with
      | mk kt kn =>
        simp only at ht h1 h10 ⊢
        subst ht
        congr 1
        omega
    · exact ⟨k, hr, by rw [if_neg hne]; exact List.mem_singleton.mpr rfl⟩

theorem mem_resolvedKeys {gs : List HoldGroup} {k : SeatKey} :
    k ∈ resolvedKeys gs ↔
      ∃ g ∈ gs,
        (g.full = true ∧ k = ⟨g.tableId, 0⟩) ∨
        (g.full = false ∧ ∃ n ∈ g.seats, k = ⟨g.tableId, n⟩) := by
  rw [resolvedKeys, List.mem_flatMap]
  apply exists_congr
  intro g
  apply and_congr_right
  intro _
  by_cases h : g.full
  · simp [h]
  · simp only [if_neg h, List.mem_map]
    simp [h]
    tauto

theorem mem_normalizeGroups {g : HoldGroup} {seats : List SeatKey} :
    g ∈ normalizeGroups seats ↔ ∃ t ∈ tablesIn seats, g = groupFor t seats := by
  simp only [normalizeGroups, List.mem_map]
  tauto

/-! ## Claim theorems: view expansion and validation -/

/-- C7: `expand` maps each row with `seatNo = 0` to exactly the ten
rows with seat numbers 1 through 10 for the same `tableId` (in
particular ten rows, seat numbers 1..10), passes every row with a
non-zero seat number through unchanged, and produces nothing else. -/
theorem expand_spec :
    (∀ (t : String) (rows : List SeatKey),
        expand (⟨t, 0⟩ :: rows) =
          [⟨t, 1⟩, ⟨t, 2⟩, ⟨t, 3⟩, ⟨t, 4⟩, ⟨t, 5⟩, ⟨t, 6⟩, ⟨t, 7⟩, ⟨t, 8⟩, ⟨t, 9⟩, ⟨t, 10⟩] ++
            expand rows) ∧
    (∀ (t : String), (expand [⟨t, 0⟩]).length = 10) ∧
    (∀ (r : SeatKey) (rows : List SeatKey),
        r.seatNo ≠ 0 → expand (r :: rows) = r :: expand rows) ∧
    expand ([] : List SeatKey) = [] := by
  refine ⟨fun t rows => rfl, fun t => rfl, ?_, rfl⟩
  intro r rows h
  show (if r.seatNo = 0 then _ else [r]) ++ expand rows = r :: expand rows
  rw [if_neg h]
  rfl

/-- Witness for C7: a pass-through row and a full-table row evaluated
concretely. -/
theorem expand_spec_witness :
    expand [⟨"A", 5⟩] = [⟨"A", 5⟩] ∧ (expand [⟨"B", 0⟩]).length = 10 := by
  constructor
  · rw [expand_spec.2.2.1 ⟨"A", 5⟩ [] (by decide), expand_spec.2.2.2]
  · exact expand_spec.2.1 "B"

/-- C9: an empty seat list, or a non-positive ttl, is rejected as a
422 validation error with the store untouched (the ttl is an `Int`
here, so the non-finite JS numbers rejected by `Number.isFinite` are
outside the model). -/
theorem requestHold_validation_spec :
    ∀ (st : Store) (now : Int) (seats : List SeatKey) (ttlSec : Int)
      (holdId : Option String) (genId : String),
      (seats = [] →
        requestHold st now seats ttlSec holdId genId =
          (.validationError "seats[] required", st)) ∧
      (seats ≠ [] → ttlSec ≤ 0 →
        requestHold st now seats ttlSec holdId genId =
          (.validationError "ttlSec invalid", st)) := by
  intro st now seats ttl o gen
  constructor
  · rintro rfl
    rfl
  · intro hs ht
    simp [requestHold, List.isEmpty_iff, hs, ht]

/-- Witness for C9: both validation failures at concrete inputs. -/
theorem requestHold_validation_spec_witness :
    requestHold ⟨[], []⟩ 0 [] 600 none "G" = (.validationError "seats[] required", ⟨[], []⟩) ∧
    requestHold ⟨[], []⟩ 0 [⟨"A", 1⟩] 0 none "G" = (.validationError "ttlSec invalid", ⟨[], []⟩) :=
  ⟨(requestHold_validation_spec ⟨[], []⟩ 0 [] 600 none "G").1 rfl,
   (requestHold_validation_spec ⟨[], []⟩ 0 [⟨"A", 1⟩] 0 none "G").2 (by decide) (by decide)⟩

/-- C10: the input `seats = [{tableId: "A", seatNo: -1}]`, `ttlSec =
600` passes both validations, normalizes to a partial group with an
empty positive-seat list, and therefore hits the malformed empty
`IN ()` query: the request fails as a store error (HTTP 500,
`hold_failed`) for every store, writing nothing. -/
theorem requestHold_empty_partial_storeError :
    ∀ (st : Store) (now : Int) (genId : String),
      normalizeGroups [⟨"A", -1⟩] = [⟨"A", false, []⟩] ∧
      requestHold st now [⟨"A", -1⟩] 600 none genId = (.storeError, st) := by
  intro st now genId
  exact ⟨by decide, rfl⟩

/-- The seat keys a stored row (table `t`, seat `n`) contributes to
the expanded lock list. -/
def rowYields (t : String) (n : Int) (k : SeatKey) : Prop :=
  (n = 0 ∧ k.tableId = t ∧ 1 ≤ k.seatNo ∧ k.seatNo ≤ 10) ∨ (n ≠ 0 ∧ k = ⟨t, n⟩)

instance (t : String) (n : Int) (k : SeatKey) : Decidable (rowYields t n k) := by
  unfold rowYields
  infer_instance

/-- C5: `GET /api/locks` first deletes exactly the temporary holds
whose expiry has passed (leaving the permanent allocations alone),
so an expired hold is gone from the store afterwards; the response
is precisely the expanded temporary holds that are unexpired plus the
expanded permanent allocations of the event, so an expired hold never
contributes a seat key to the output. -/
theorem listActive_spec :
    ∀ (st : Store) (now : Int),
      (listActive st now).1.seat_locks =
        st.seat_locks.filter (fun r => !(r.expires_at < now)) ∧
      (listActive st now).1.done_seatlocks = st.done_seatlocks ∧
      (∀ r ∈ st.seat_locks, r.expires_at < now →
        r ∉ (listActive st now).1.seat_locks) ∧
      (∀ k, k ∈ (listActive st now).2 ↔
        ((∃ r ∈ st.seat_locks, r.event_id = "default" ∧ now < r.expires_at ∧
            rowYields r.table_id r.seat_no k) ∨
         (∃ p ∈ st.done_seatlocks, p.event_id = "default" ∧
            rowYields p.table_id p.seat_no k))) := by
  intro st now
  refine ⟨rfl, rfl, ?_, ?_⟩
  · intro r _ hexp hmem
    have h := (List.mem_filter.mp hmem).2
    simp only [Bool.not_eq_true', decide_eq_false_iff_not] at h
    exact h hexp
  · intro k
    show k ∈ expand _ ++ expand _ ↔ _
    rw [List.mem_append, mem_expand, mem_expand]
    apply or_congr
    · constructor
      · rintro ⟨rk, hrk, hp⟩
        obtain ⟨row, hrow, rfl⟩ := List.mem_map.mp hrk
        have h1 := List.mem_filter.mp hrow
        have h2 := List.mem_filter.mp h1.1
        have h3 := h1.2
        simp only [Bool.and_eq_true, beq_iff_eq, decide_eq_true_eq] at h3
        exact ⟨row, h2.1, h3.1, h3.2, hp⟩
      · rintro ⟨row, hrow, hev, hexp, hy⟩
        refine ⟨⟨row.table_id, row.seat_no⟩, List.mem_map.mpr ⟨row, ?_, rfl⟩, hy⟩
        refine List.mem_filter.mpr ⟨List.mem_filter.mpr ⟨hrow, ?_⟩, ?_⟩
        · simp only [Bool.not_eq_true', decide_eq_false_iff_not]
          omega
        · simp only [Bool.and_eq_true, beq_iff_eq, decide_eq_true_eq]
          exact ⟨hev, hexp⟩
    · constructor
      · rintro ⟨pk, hpk, hp⟩
        obtain ⟨p, hpmem, rfl⟩ := List.mem_map.mp hpk
        have h1 := List.mem_filter.mp hpmem
        have h2 := h1.2
        simp only [beq_iff_eq] at h2
        exact ⟨p, h1.1, h2, hp⟩
      · rintro ⟨p, hpmem, hev, hy⟩
        refine ⟨⟨p.table_id, p.seat_no⟩, List.mem_map.mpr ⟨p, ?_, rfl⟩, hy⟩
        exact List.mem_filter.mpr ⟨hpmem, by simp only [beq_iff_eq]; exact hev⟩

/-- Witness for C5: an expired hold is swept from the store and is
absent from the listing, a live full-table hold expands to the ten
seats. -/
theorem listActive_spec_witness :
    ((⟨"default", "C", 4, "H4", -5, 0⟩ : TempHold) ∉
      (listActive ⟨[⟨"default", "C", 4, "H4", -5, 0⟩], []⟩ 10).1.seat_locks) ∧
    ((⟨"C", 4⟩ : SeatKey) ∉
      (listActive ⟨[⟨"default", "C", 4, "H4", -5, 0⟩], []⟩ 10).2) :=
  ⟨(listActive_spec ⟨[⟨"default", "C", 4, "H4", -5, 0⟩], []⟩ 10).2.2.1 _ (by decide)
      (by decide),
   fun h => by
    have h2 := ((listActive_spec ⟨[⟨"default", "C", 4, "H4", -5, 0⟩], []⟩ 10).2.2.2
      ⟨"C", 4⟩).mp h
    revert h2
    decide⟩

/-! ## Claim theorems: conflict detection -/

/-- A check outcome that aborts the request as a 409 conflict. -/
def conflictB : GroupCheck → Bool
  | .sold _ => true
  | .held _ => true
  | _ => false

theorem filter_isEmpty_false_iff {α : Type} (p : α → Bool) (l : List α) :
    (!(l.filter p).isEmpty) = true ↔ ∃ a ∈ l, p a = true := by
  rw [Bool.not_eq_true', List.isEmpty_eq_false]
  constructor
  · intro h
    obtain ⟨a, ha⟩ := List.exists_mem_of_ne_nil _ h
    have := List.mem_filter.mp ha
    exact ⟨a, this.1, this.2⟩
  · rintro ⟨a, ha, hpa⟩
    intro he
    exact (List.not_mem_nil a) (he ▸ List.mem_filter.mpr ⟨ha, hpa⟩)

theorem holdDiffFull_eq_true {o : Option String} {x : String} :
    holdDiffFull o x = true ↔ ∀ h, o = some h → x ≠ h := by
  cases o with
  | none => simp [holdDiffFull]
  | some s => simp [holdDiffFull]

theorem holdDiffPart_eq_true {o : Option String} {x : String} (ho : o ≠ some "") :
    holdDiffPart o x = true ↔ ∀ h, o = some h → x ≠ h := by
  cases o with
  | none => simp [holdDiffPart]
  | some s =>
    have hs : s ≠ "" := fun he => ho (by rw [he])
    simp [holdDiffPart, hs]

/-- C1: in the conflict check of `POST /api/locks/hold` — provided the
caller did not supply the degenerate empty-string holdId — a full
group conflicts exactly when some permanent allocation exists for the
table (any seat) or some unexpired temporary hold exists for the
table under a hold id different from the supplied one (absent holdId:
every hold differs); a (non-degenerate) partial group conflicts
exactly when a permanent allocation exists at seat 0 or a requested
seat of the table, or such an unexpired temporary hold exists under a
different hold id. -/
theorem checkGroup_conflict_iff :
    ∀ (st : Store) (now : Int) (o : Option String) (g : HoldGroup),
      o ≠ some "" →
      (g.full = true →
        (conflictB (checkGroup st now o g) = true ↔
          (∃ p ∈ st.done_seatlocks, p.event_id = "default" ∧ p.table_id = g.tableId) ∨
          (∃ r ∈ st.seat_locks, r.event_id = "default" ∧ r.table_id = g.tableId ∧
            now < r.expires_at ∧ ∀ h, o = some h → r.hold_id ≠ h))) ∧
      (g.full = false → g.seats ≠ [] →
        (conflictB (checkGroup st now o g) = true ↔
          (∃ p ∈ st.done_seatlocks, p.event_id = "default" ∧ p.table_id = g.tableId ∧
            (p.seat_no = 0 ∨ p.seat_no ∈ g.seats)) ∨
          (∃ r ∈ st.seat_locks, r.event_id = "default" ∧ now < r.expires_at ∧
            r.table_id = g.tableId ∧ (r.seat_no = 0 ∨ r.seat_no ∈ g.seats) ∧
            ∀ h, o = some h → r.hold_id ≠ h))) := by
  intro st now o g ho
  constructor
  · intro hfull
    rw [checkGroup, hfull]
    simp only [if_true]
    by_cases hp : (!(st.done_seatlocks.filter fun p =>
        p.event_id == "default" && p.table_id == g.tableId).isEmpty) = true
    · rw [if_pos hp]
      simp only [conflictB, true_iff]
      left
      obtain ⟨p, hpm, hpp⟩ := (filter_isEmpty_false_iff _ _).mp hp
      simp only [Bool.and_eq_true, beq_iff_eq] at hpp
      exact ⟨p, hpm, hpp.1, hpp.2⟩
    · rw [if_neg hp]
      by_cases ha : ((st.seat_locks.filter fun r =>
          r.event_id == "default" && r.table_id == g.tableId && now < r.expires_at).any
          fun r => holdDiffFull o r.hold_id) = true
      · rw [if_pos ha]
        simp only [conflictB, true_iff]
        right
        obtain ⟨r, hrm, hrd⟩ := List.any_eq_true.mp ha
        have hr := List.mem_filter.mp hrm
        simp only [Bool.and_eq_true, beq_iff_eq, decide_eq_true_eq] at hr
        exact ⟨r, hr.1, hr.2.1.1, hr.2.1.2, hr.2.2, holdDiffFull_eq_true.mp hrd⟩
      · rw [if_neg ha]
        simp only [conflictB, Bool.false_eq_true, false_iff]
        rintro (⟨p, hpm, hev, ht⟩ | ⟨r, hrm, hev, ht, hexp, hd⟩)
        · exact hp ((filter_isEmpty_false_iff _ _).mpr
            ⟨p, hpm, by simp only [Bool.and_eq_true, beq_iff_eq]; exact ⟨hev, ht⟩⟩)
        · refine ha (List.any_eq_true.mpr ⟨r, ?_, holdDiffFull_eq_true.mpr hd⟩)
          refine List.mem_filter.mpr ⟨hrm, ?_⟩
          simp only [Bool.and_eq_true, beq_iff_eq, decide_eq_true_eq]
          exact ⟨⟨hev, ht⟩, hexp⟩
  · intro hfull hne
    rw [checkGroup, hfull]
    simp only [Bool.false_eq_true, if_false]
    rw [if_neg (by simpa [List.isEmpty_iff] using hne)]
    by_cases hp : (!(st.done_seatlocks.filter fun p =>
        p.event_id == "default" &&
          ((p.table_id == g.tableId && p.seat_no == 0) ||
            (p.table_id == g.tableId && g.seats.contains p.seat_no))).isEmpty) = true
    · rw [if_pos hp]
      simp only [conflictB, true_iff]
      left
      obtain ⟨p, hpm, hpp⟩ := (filter_isEmpty_false_iff _ _).mp hp
      simp only [Bool.and_eq_true, Bool.or_eq_true, beq_iff_eq] at hpp
      refine ⟨p, hpm, hpp.1, ?_⟩
      rcases hpp.2 with ⟨ht, h0⟩ | ⟨ht, hc⟩
      · exact ⟨ht, Or.inl h0⟩
      · exact ⟨ht, Or.inr (by simpa using hc)⟩
    · rw [if_neg hp]
      by_cases hc : (!((st.seat_locks.filter fun r =>
          r.event_id == "default" && now < r.expires_at &&
            ((r.table_id == g.tableId && r.seat_no == 0) ||
              (r.table_id == g.tableId && g.seats.contains r.seat_no))).filter
          fun r => holdDiffPart o r.hold_id).isEmpty) = true
      · rw [if_pos hc]
        simp only [conflictB, true_iff]
        right
        obtain ⟨r, hrm, hrd⟩ := (filter_isEmpty_false_iff _ _).mp hc
        have hr := List.mem_filter.mp hrm
        have hq := hr.2
        simp only [Bool.and_eq_true, Bool.or_eq_true, beq_iff_eq, decide_eq_true_eq] at hq
        refine ⟨r, hr.1, hq.1.1, hq.1.2, ?_, ?_, (holdDiffPart_eq_true ho).mp hrd⟩
        · rcases hq.2 with ⟨ht, _⟩ | ⟨ht, _⟩ <;> exact ht
        · rcases hq.2 with ⟨_, h0⟩ | ⟨_, hcm⟩
          · exact Or.inl h0
          · exact Or.inr (by simpa using hcm)
      · rw [if_neg hc]
        simp only [conflictB, Bool.false_eq_true, false_iff]
        rintro (⟨p, hpm, hev, ht, hs⟩ | ⟨r, hrm, hev, hexp, ht, hs, hd⟩)
        · refine hp ((filter_isEmpty_false_iff _ _).mpr ⟨p, hpm, ?_⟩)
          simp only [Bool.and_eq_true, Bool.or_eq_true, beq_iff_eq]
          rcases hs with h0 | hin
          · exact ⟨hev, Or.inl ⟨ht, h0⟩⟩
          · exact ⟨hev, Or.inr ⟨ht, by simpa using hin⟩⟩
        · refine hc ((filter_isEmpty_false_iff _ _).mpr ⟨r, ?_, (holdDiffPart_eq_true ho).mpr hd⟩)
          refine List.mem_filter.mpr ⟨hrm, ?_⟩
          simp only [Bool.and_eq_true, Bool.or_eq_true, beq_iff_eq, decide_eq_true_eq]
          rcases hs with h0 | hin
          · exact ⟨⟨hev, hexp⟩, Or.inl ⟨ht, h0⟩⟩
          · exact ⟨⟨hev, hexp⟩, Or.inr ⟨ht, by simpa using hin⟩⟩

/-- Witness for C1: a full-table request conflicts with a single sold
seat; a partial request on a free table does not conflict. -/
theorem checkGroup_conflict_iff_witness :
    conflictB (checkGroup ⟨[], [⟨"default", 1, "A", 3⟩]⟩ 0 (some "H1") ⟨"A", true, [0]⟩) = true ∧
    conflictB (checkGroup ⟨[], [⟨"default", 1, "A", 3⟩]⟩ 0 (some "H1") ⟨"B", false, [2]⟩) = false := by
  constructor
  · exact ((checkGroup_conflict_iff ⟨[], [⟨"default", 1, "A", 3⟩]⟩ 0 (some "H1")
      ⟨"A", true, [0]⟩ (by decide)).1 rfl).mpr (Or.inl ⟨⟨"default", 1, "A", 3⟩, by decide, by decide, by decide⟩)
  · have h := (checkGroup_conflict_iff ⟨[], [⟨"default", 1, "A", 3⟩]⟩ 0 (some "H1")
      ⟨"B", false, [2]⟩ (by decide)).2 rfl (by decide)
    rw [Bool.eq_false_iff]
    intro hc
    rcases h.mp hc with ⟨p, hp, _, htb, _⟩ | ⟨r, hr, _⟩
    · have hpe : p = ⟨"default", 1, "A", 3⟩ := by simpa using hp
      subst hpe
      exact absurd htb (by decide)
    · exact (List.not_mem_nil r) hr

theorem scanGroups_append_ok {st : Store} {now : Int} {o : Option String} :
    ∀ {gs1 gs2 : List HoldGroup},
      (∀ g ∈ gs1, checkGroup st now o g = .ok) →
      scanGroups st now o (gs1 ++ gs2) = scanGroups st now o gs2 := by
  intro gs1
  induction gs1 with
  | nil => intro gs2 _; rfl
  | cons g gs ih =>
    intro gs2 h
    show (match checkGroup st now o g with
      | .ok => scanGroups st now o (gs ++ gs2)
      | r => r) = _
    rw [h g (List.mem_cons_self g gs)]
    exact ih fun g' hg' => h g' (List.mem_cons_of_mem g hg')

theorem requestHold_eq_of_scan (st : Store) (now : Int) (seats : List SeatKey)
    (ttlSec : Int) (holdId : Option String) (genId : String)
    (hs : seats ≠ []) (ht : 0 < ttlSec) :
    requestHold st now seats ttlSec holdId genId =
      (match scanGroups st now holdId (normalizeGroups seats) with
        | .sold cs => (.conflictSold cs, st)
        | .held cs => (.conflictHeld cs, st)
        | .err => (.storeError, st)
        | .ok =>
          (.success (effHoldId holdId genId) (resolvedKeys (normalizeGroups seats))
              ((now + ttlSec * 1000) / 1000),
            { st with
              seat_locks := writeGroups st.seat_locks (normalizeGroups seats)
                (effHoldId holdId genId) (now + ttlSec * 1000) now })) := by
  rw [requestHold, if_neg (by simpa [List.isEmpty_iff] using hs), if_neg (by omega)]

/-- C2 counterexample: with seats (A,1) and (B,1) both already sold,
the request `[(A,1),(B,1)]` is rejected reporting only `[(A,1)]`,
although group B is also conflicting — the conflicting key (B,1)
found in the same request is not reported, contradicting "the
response carries every conflicting SeatKey found across the
request". -/
theorem requestHold_conflict_report_cex :
    requestHold ⟨[], [⟨"default", 1, "A", 1⟩, ⟨"default", 2, "B", 1⟩]⟩ 0
        [⟨"A", 1⟩, ⟨"B", 1⟩] 600 none "G" =
      (.conflictSold [⟨"A", 1⟩], ⟨[], [⟨"default", 1, "A", 1⟩, ⟨"default", 2, "B", 1⟩]⟩) ∧
    conflictB (checkGroup ⟨[], [⟨"default", 1, "A", 1⟩, ⟨"default", 2, "B", 1⟩]⟩ 0 none
        ⟨"B", false, [1]⟩) = true ∧
    normalizeGroups [⟨"A", 1⟩, ⟨"B", 1⟩] = [⟨"A", false, [1]⟩, ⟨"B", false, [1]⟩] ∧
    (⟨"B", 1⟩ : SeatKey) ∉ [(⟨"A", 1⟩ : SeatKey)] :=
  ⟨by decide, by decide, by decide, by decide⟩

/-- C2 (amended): if any group conflicts, the whole request is
rejected with the store unchanged (no partial success) and the result
distinguishes sold from held; the reported structured conflict list
is the one of the first conflicting group in normalization order
(conflicts of later groups are not reported). -/
theorem requestHold_conflict_first :
    ∀ (st : Store) (now : Int) (seats : List SeatKey) (ttlSec : Int)
      (holdId : Option String) (genId : String) (gs1 : List HoldGroup)
      (g : HoldGroup) (gs2 : List HoldGroup) (cs : List SeatKey),
      seats ≠ [] → 0 < ttlSec →
      normalizeGroups seats = gs1 ++ g :: gs2 →
      (∀ g' ∈ gs1, checkGroup st now holdId g' = .ok) →
      ((checkGroup st now holdId g = .sold cs →
        requestHold st now seats ttlSec holdId genId = (.conflictSold cs, st)) ∧
       (checkGroup st now holdId g = .held cs →
        requestHold st now seats ttlSec holdId genId = (.conflictHeld cs, st))) := by
  intro st now seats ttl o gen gs1 g gs2 cs hs ht hnorm hok
  constructor
  · intro hg
    rw [requestHold_eq_of_scan st now seats ttl o gen hs ht, hnorm,
      scanGroups_append_ok hok]
    show (match (match checkGroup st now o g with
      | .ok => scanGroups st now o gs2
      | r => r) with
      | GroupCheck.sold cs => (HoldResult.conflictSold cs, st)
      | GroupCheck.held cs => (HoldResult.conflictHeld cs, st)
      | GroupCheck.err => (HoldResult.storeError, st)
      | GroupCheck.ok => _) = _
    rw [hg]
  · intro hg
    rw [requestHold_eq_of_scan st now seats ttl o gen hs ht, hnorm,
      scanGroups_append_ok hok]
    show (match (match checkGroup st now o g with
      | .ok => scanGroups st now o gs2
      | r => r) with
      | GroupCheck.sold cs => (HoldResult.conflictSold cs, st)
      | GroupCheck.held cs => (HoldResult.conflictHeld cs, st)
      | GroupCheck.err => (HoldResult.storeError, st)
      | GroupCheck.ok => _) = _
    rw [hg]

/-- Witness for C2 (amended): group A checks out, group B is sold,
the request is rejected with B's conflict list and the store kept. -/
theorem requestHold_conflict_first_witness :
    requestHold ⟨[], [⟨"default", 2, "B", 1⟩]⟩ 0 [⟨"A", 5⟩, ⟨"B", 1⟩] 600 none "G" =
      (.conflictSold [⟨"B", 1⟩], ⟨[], [⟨"default", 2, "B", 1⟩]⟩) :=
  (requestHold_conflict_first ⟨[], [⟨"default", 2, "B", 1⟩]⟩ 0 [⟨"A", 5⟩, ⟨"B", 1⟩] 600
    none "G" [⟨"A", false, [5]⟩] ⟨"B", false, [1]⟩ [] [⟨"B", 1⟩] (by decide) (by decide)
    (by decide) (by decide)).1 (by decide)

/-! ## Claim theorems: normalization -/

theorem groupFor_tableId (t : String) (seats : List SeatKey) :
    (groupFor t seats).tableId = t := by
  rw [groupFor]
  split <;> rfl

theorem fullCond_iff (t : String) (seats : List SeatKey) :
    ((0 : Int) ∈ sortedDedup (seatNumsFor t seats) ∨
      sortedDedup (seatNumsFor t seats) = seq1to10) ↔
    ((∃ s ∈ seats, s.tableId = t ∧ s.seatNo = 0) ∨
      (∀ n : Int, (∃ s ∈ seats, s.tableId = t ∧ s.seatNo = n) ↔ 1 ≤ n ∧ n ≤ 10)) := by
  apply or_congr
  · rw [mem_sortedDedup, mem_seatNumsFor]
  · constructor
    · intro h n
      rw [← mem_seatNumsFor, ← mem_sortedDedup, h, mem_seq1to10]
    · intro h
      apply sorted_eq_of_mem_iff (sorted_sortedDedup _) (by decide)
      intro n
      rw [mem_sortedDedup, mem_seatNumsFor, mem_seq1to10]
      exact h n

/-- C6: normalization produces exactly one group per requested table;
a table whose requested seat-number set contains 0 or is exactly
{1,...,10} becomes a full group collapsed to the sentinel seat list
`[0]`; any other table becomes a partial group whose seat list is
strictly ascending (so deduplicated) and holds exactly the positive
requested seat numbers (seat numbers ≤ 0 are dropped). -/
theorem normalizeGroups_spec :
    ∀ (seats : List SeatKey),
      ((normalizeGroups seats).map (fun g => g.tableId)).Nodup ∧
      (∀ t, (∃ g ∈ normalizeGroups seats, g.tableId = t) ↔ ∃ s ∈ seats, s.tableId = t) ∧
      (∀ g ∈ normalizeGroups seats,
        (((∃ s ∈ seats, s.tableId = g.tableId ∧ s.seatNo = 0) ∨
            (∀ n : Int, (∃ s ∈ seats, s.tableId = g.tableId ∧ s.seatNo = n) ↔
              1 ≤ n ∧ n ≤ 10)) →
          g.full = true ∧ g.seats = [0]) ∧
        ((¬((∃ s ∈ seats, s.tableId = g.tableId ∧ s.seatNo = 0) ∨
            (∀ n : Int, (∃ s ∈ seats, s.tableId = g.tableId ∧ s.seatNo = n) ↔
              1 ≤ n ∧ n ≤ 10))) →
          g.full = false ∧ g.seats.Sorted (· < ·) ∧
            (∀ n, n ∈ g.seats ↔
              (∃ s ∈ seats, s.tableId = g.tableId ∧ s.seatNo = n) ∧ 0 < n))) := by
  intro seats
  have hmap : (normalizeGroups seats).map (fun g => g.tableId) = tablesIn seats := by
    rw [normalizeGroups, List.map_map]
    exact List.map_congr_left (fun t _ => groupFor_tableId t seats) |>.trans (List.map_id _)
  refine ⟨?_, ?_, ?_⟩
  · rw [hmap]
    exact nodup_tablesIn seats
  · intro t
    rw [← mem_tablesIn, ← hmap]
    simp only [List.mem_map]
  · intro g hg
    obtain ⟨t, ht, rfl⟩ := mem_normalizeGroups.mp hg
    simp only [groupFor_tableId]
    by_cases hcond : (0 : Int) ∈ sortedDedup (seatNumsFor t seats) ∨
        sortedDedup (seatNumsFor t seats) = seq1to10
    · constructor
      · intro _
        rw [groupFor, if_pos hcond]
        exact ⟨rfl, rfl⟩
      · intro hn
        exact absurd ((fullCond_iff t seats).mp hcond) hn
    · constructor
      · intro hs
        exact absurd ((fullCond_iff t seats).mpr hs) hcond
      · intro _
        rw [groupFor, if_neg hcond]
        refine ⟨rfl, ?_, ?_⟩
        · exact (sorted_sortedDedup (seatNumsFor t seats)).filter _
        · intro n
          show n ∈ (sortedDedup (seatNumsFor t seats)).filter (fun n => decide (0 < n)) ↔ _
          rw [List.mem_filter, mem_sortedDedup, mem_seatNumsFor]
          simp only [decide_eq_true_eq]

/-- Witness for C6: a request mixing the sentinel, a duplicate, a
negative seat and a second table, evaluated concretely. -/
theorem normalizeGroups_spec_witness :
    ((normalizeGroups [⟨"A", 0⟩, ⟨"A", 3⟩, ⟨"B", 7⟩, ⟨"B", 7⟩, ⟨"B", -2⟩]).map
        (fun g => g.tableId)).Nodup ∧
    ((⟨"A", true, [0]⟩ : HoldGroup).full = true ∧
      (⟨"A", true, [0]⟩ : HoldGroup).seats = [0]) ∧
    ((⟨"B", false, [7]⟩ : HoldGroup).full = false ∧
      (∀ n, n ∈ (⟨"B", false, [7]⟩ : HoldGroup).seats ↔
        (∃ s ∈ [(⟨"A", 0⟩ : SeatKey), ⟨"A", 3⟩, ⟨"B", 7⟩, ⟨"B", 7⟩, ⟨"B", -2⟩],
          s.tableId = (⟨"B", false, [7]⟩ : HoldGroup).tableId ∧ s.seatNo = n) ∧ 0 < n)) := by
  have h := normalizeGroups_spec [⟨"A", 0⟩, ⟨"A", 3⟩, ⟨"B", 7⟩, ⟨"B", 7⟩, ⟨"B", -2⟩]
  refine ⟨h.1, ?_, ?_⟩
  · have hA := (h.2.2 ⟨"A", true, [0]⟩ (by decide)).1
      (Or.inl ⟨⟨"A", 0⟩, by decide, by decide, by decide⟩)
    exact hA
  · have hnot : ¬((∃ s ∈ [(⟨"A", 0⟩ : SeatKey), ⟨"A", 3⟩, ⟨"B", 7⟩, ⟨"B", 7⟩, ⟨"B", -2⟩],
        s.tableId = (⟨"B", false, [7]⟩ : HoldGroup).tableId ∧ s.seatNo = 0) ∨
        (∀ n : Int, (∃ s ∈ [(⟨"A", 0⟩ : SeatKey), ⟨"A", 3⟩, ⟨"B", 7⟩, ⟨"B", 7⟩, ⟨"B", -2⟩],
          s.tableId = (⟨"B", false, [7]⟩ : HoldGroup).tableId ∧ s.seatNo = n) ↔
            1 ≤ n ∧ n ≤ 10)) := by
      rintro (h0 | hall)
      · revert h0
        decide
      · have h1 := (hall 1).mpr (by norm_num)
        revert h1
        decide
    have hB := (h.2.2 ⟨"B", false, [7]⟩ (by decide)).2 hnot
    exact ⟨hB.1, hB.2.2⟩

/-! ## Claim theorems: round trip -/

theorem groupFor_full_iff (t : String) (seats : List SeatKey) :
    (groupFor t seats).full = true ↔
      ((0 : Int) ∈ sortedDedup (seatNumsFor t seats) ∨
        sortedDedup (seatNumsFor t seats) = seq1to10) := by
  rw [groupFor]
  split <;> rename_i h <;> simp [h]

theorem seatKey_eq {a b : SeatKey} (h1 : a.tableId = b.tableId)
    (h2 : a.seatNo = b.seatNo) : a = b := by
  cases a with
  | mk ta na =>
    cases b with
    | mk tb nb =>
      simp only [SeatKey.mk.injEq]
      exact ⟨h1, h2⟩

/-- C8 counterexample: `X1 = [(A,0),(A,11)]` is per-table fully-full
in the claim's sense (it contains the sentinel 0), yet the round
trip drops seat 11, so the two sides differ even as sets; and for
the fully-partial `X2 = [(A,2),(A,1)]` the two sides are the same
set but different lists, so the claimed equality can hold only up to
set equality. -/
theorem expand_normalize_roundtrip_cex :
    ((∃ s ∈ [(⟨"A", 0⟩ : SeatKey), ⟨"A", 11⟩], s.seatNo = 0) ∧
     (⟨"A", 11⟩ : SeatKey) ∈ expand [⟨"A", 0⟩, ⟨"A", 11⟩] ∧
     (⟨"A", 11⟩ : SeatKey) ∉ expand (resolvedKeys (normalizeGroups [⟨"A", 0⟩, ⟨"A", 11⟩]))) ∧
    ((∀ s ∈ [(⟨"A", 2⟩ : SeatKey), ⟨"A", 1⟩], 0 < s.seatNo) ∧
     expand (resolvedKeys (normalizeGroups [⟨"A", 2⟩, ⟨"A", 1⟩])) ≠ expand [⟨"A", 2⟩, ⟨"A", 1⟩] ∧
     (∀ k, k ∈ expand (resolvedKeys (normalizeGroups [⟨"A", 2⟩, ⟨"A", 1⟩])) ↔
        k ∈ expand [⟨"A", 2⟩, ⟨"A", 1⟩])) := by
  refine ⟨⟨by decide, by decide, by decide⟩, ⟨by decide, by decide, ?_⟩⟩
  intro k
  have h1 : expand (resolvedKeys (normalizeGroups [⟨"A", 2⟩, ⟨"A", 1⟩])) =
      [⟨"A", 1⟩, ⟨"A", 2⟩] := by decide
  have h2 : expand [(⟨"A", 2⟩ : SeatKey), ⟨"A", 1⟩] = [⟨"A", 2⟩, ⟨"A", 1⟩] := by decide
  rw [h1, h2]
  simp only [List.mem_cons, List.not_mem_nil, or_false]
  tauto

/-- C8 (amended): for every request whose seat numbers are all
non-negative and in which any table carrying the sentinel 0 has its
other seats within 1..10, `expand` after normalization yields exactly
the same set of seat keys as expanding the raw request (the lists may
differ in order and multiplicity). -/
theorem expand_normalize_roundtrip :
    ∀ (seats : List SeatKey),
      (∀ s ∈ seats, 0 ≤ s.seatNo) →
      (∀ s ∈ seats, ∀ s2 ∈ seats, s.tableId = s2.tableId → s.seatNo = 0 →
        s2.seatNo ≤ 10) →
      ∀ k, k ∈ expand (resolvedKeys (normalizeGroups seats)) ↔ k ∈ expand seats := by
  intro seats pre1 pre2 k
  rw [mem_expand, mem_expand]
  constructor
  · rintro ⟨rk, hrk, hy⟩
    obtain ⟨g, hgmem, hcase⟩ := mem_resolvedKeys.mp hrk
    obtain ⟨t, htmem, rfl⟩ := mem_normalizeGroups.mp hgmem
    rcases hcase with ⟨hfull, rfl⟩ | ⟨hpart, n, hn, rfl⟩
    · rcases hy with ⟨_, hkt, h1, h10⟩ | ⟨hne, _⟩
      · have hkt' : k.tableId = t := by rw [hkt, groupFor_tableId]
        rcases (groupFor_full_iff t seats).mp hfull with h0 | hseq
        · obtain ⟨s, hs, hst, hs0⟩ := mem_seatNumsFor.mp (mem_sortedDedup.mp h0)
          exact ⟨s, hs, Or.inl ⟨hs0, hkt'.trans hst.symm, h1, h10⟩⟩
        · have hk10 : k.seatNo ∈ sortedDedup (seatNumsFor t seats) := by
            rw [hseq, mem_seq1to10]
            exact ⟨h1, h10⟩
          obtain ⟨s, hs, hst, hsn⟩ := mem_seatNumsFor.mp (mem_sortedDedup.mp hk10)
          refine ⟨s, hs, Or.inr ⟨by omega, seatKey_eq (hkt'.trans hst.symm) hsn.symm⟩⟩
      · exact absurd rfl hne
    · have hcond : ¬((0 : Int) ∈ sortedDedup (seatNumsFor t seats) ∨
          sortedDedup (seatNumsFor t seats) = seq1to10) := by
        intro hc
        have := (groupFor_full_iff t seats).mpr hc
        rw [hpart] at this
        exact Bool.false_ne_true this
      have hseats : (groupFor t seats).seats =
          (sortedDedup (seatNumsFor t seats)).filter (fun n => decide (0 < n)) := by
        rw [groupFor, if_neg hcond]
      rw [hseats] at hn
      have hmem := List.mem_filter.mp hn
      have hpos : 0 < n := by simpa using hmem.2
      obtain ⟨s, hs, hst, hsn⟩ := mem_seatNumsFor.mp (mem_sortedDedup.mp hmem.1)
      rcases hy with ⟨h0, _⟩ | ⟨_, rfl⟩
      · have hn0 : n = 0 := h0
        omega
      · refine ⟨s, hs, Or.inr ⟨by omega, ?_⟩⟩
        refine seatKey_eq ?_ hsn.symm
        show (groupFor t seats).tableId = s.tableId
        rw [groupFor_tableId]
        exact hst.symm
  · rintro ⟨s, hs, hy⟩
    have ht : s.tableId ∈ tablesIn seats := mem_tablesIn.mpr ⟨s, hs, rfl⟩
    have hgmem : groupFor s.tableId seats ∈ normalizeGroups seats :=
      mem_normalizeGroups.mpr ⟨s.tableId, ht, rfl⟩
    rcases hy with ⟨hs0, hkt, h1, h10⟩ | ⟨hne, rfl⟩
    · have h0mem : (0 : Int) ∈ sortedDedup (seatNumsFor s.tableId seats) :=
        mem_sortedDedup.mpr (mem_seatNumsFor.mpr ⟨s, hs, rfl, hs0⟩)
      have hfull := (groupFor_full_iff s.tableId seats).mpr (Or.inl h0mem)
      refine ⟨⟨(groupFor s.tableId seats).tableId, 0⟩,
        mem_resolvedKeys.mpr ⟨groupFor s.tableId seats, hgmem, Or.inl ⟨hfull, rfl⟩⟩,
        Or.inl ⟨rfl, ?_, h1, h10⟩⟩
      show k.tableId = (groupFor s.tableId seats).tableId
      rw [groupFor_tableId]
      exact hkt
    · have hpos : 0 < k.seatNo := lt_of_le_of_ne (pre1 k hs) (Ne.symm hne)
      by_cases hcond : (0 : Int) ∈ sortedDedup (seatNumsFor k.tableId seats) ∨
          sortedDedup (seatNumsFor k.tableId seats) = seq1to10
      · have hb : 1 ≤ k.seatNo ∧ k.seatNo ≤ 10 := by
          rcases hcond with h0 | hseq
          · obtain ⟨s0, hs0mem, hst0, hs00⟩ := mem_seatNumsFor.mp (mem_sortedDedup.mp h0)
            have hle := pre2 s0 hs0mem k hs hst0 hs00
            omega
          · have hmem : k.seatNo ∈ seq1to10 := by
              rw [← hseq]
              exact mem_sortedDedup.mpr (mem_seatNumsFor.mpr ⟨k, hs, rfl, rfl⟩)
            exact mem_seq1to10.mp hmem
        have hfull := (groupFor_full_iff k.tableId seats).mpr hcond
        refine ⟨⟨(groupFor k.tableId seats).tableId, 0⟩,
          mem_resolvedKeys.mpr ⟨groupFor k.tableId seats, hgmem, Or.inl ⟨hfull, rfl⟩⟩,
          Or.inl ⟨rfl, ?_, hb.1, hb.2⟩⟩
        show k.tableId = (groupFor k.tableId seats).tableId
        rw [groupFor_tableId]
      · have hfalse : (groupFor k.tableId seats).full = false :=
          Bool.eq_false_iff.mpr fun h => hcond ((groupFor_full_iff _ _).mp h)
        have hseats : (groupFor k.tableId seats).seats =
            (sortedDedup (seatNumsFor k.tableId seats)).filter (fun n => decide (0 < n)) := by
          rw [groupFor, if_neg hcond]
        refine ⟨⟨(groupFor k.tableId seats).tableId, k.seatNo⟩,
          mem_resolvedKeys.mpr ⟨groupFor k.tableId seats, hgmem,
            Or.inr ⟨hfalse, k.seatNo, ?_, rfl⟩⟩, ?_⟩
        · rw [hseats]
          exact List.mem_filter.mpr
            ⟨mem_sortedDedup.mpr (mem_seatNumsFor.mpr ⟨k, hs, rfl, rfl⟩), by simpa using hpos⟩
        · refine Or.inr ⟨hne, ?_⟩
          exact seatKey_eq (by rw [groupFor_tableId]) rfl

/-- Witness for C8 (amended): a table holding the sentinel plus an
in-range seat, round-tripped at seat key (A,5). -/
theorem expand_normalize_roundtrip_witness :
    ((⟨"A", 5⟩ : SeatKey) ∈ expand (resolvedKeys (normalizeGroups [⟨"A", 0⟩, ⟨"A", 5⟩]))) ∧
    ((⟨"A", 5⟩ : SeatKey) ∈ expand [⟨"A", 0⟩, ⟨"A", 5⟩]) :=
  ⟨(expand_normalize_roundtrip [⟨"A", 0⟩, ⟨"A", 5⟩] (by decide) (by decide) ⟨"A", 5⟩).mpr
      (by decide),
   by decide⟩

/-! ## Claim theorems: the successful hold write -/

/-- The Boolean test for the composite unique key `('default', t, n)`. -/
def keyEqB (t : String) (n : Int) (r : TempHold) : Bool :=
  r.event_id == "default" && r.table_id == t && r.seat_no == n

/-- Well-formedness guaranteed by the unique constraint of
`seat_locks`: no two rows share `(event_id, table_id, seat_no)`. -/
def WFlocks (locks : List TempHold) : Prop :=
  List.Pairwise
    (fun a b => ¬(a.event_id = b.event_id ∧ a.table_id = b.table_id ∧ a.seat_no = b.seat_no))
    locks

theorem sameKey_eq_true {a b : TempHold} :
    sameKey a b = true ↔
      a.event_id = b.event_id ∧ a.table_id = b.table_id ∧ a.seat_no = b.seat_no := by
  simp [sameKey, and_assoc]

theorem keyEqB_eq_true {t : String} {n : Int} {r : TempHold} :
    keyEqB t n r = true ↔ r.event_id = "default" ∧ r.table_id = t ∧ r.seat_no = n := by
  simp [keyEqB, and_assoc]

theorem keyEqB_upd (t : String) (n : Int) (row x : TempHold) :
    keyEqB t n
      (if sameKey row x then { x with hold_id := row.hold_id, expires_at := row.expires_at }
        else x) = keyEqB t n x := by
  split <;> rfl

theorem updKeys (row x : TempHold) :
    ((if sameKey row x then { x with hold_id := row.hold_id, expires_at := row.expires_at }
        else x) : TempHold).event_id = x.event_id ∧
    ((if sameKey row x then { x with hold_id := row.hold_id, expires_at := row.expires_at }
        else x) : TempHold).table_id = x.table_id ∧
    ((if sameKey row x then { x with hold_id := row.hold_id, expires_at := row.expires_at }
        else x) : TempHold).seat_no = x.seat_no := by
  split <;> exact ⟨rfl, rfl, rfl⟩

theorem upsertLock_wf {locks : List TempHold} {row : TempHold} (h : WFlocks locks) :
    WFlocks (upsertLock locks row) := by
  rw [upsertLock]
  split
  · unfold WFlocks
    refine List.Pairwise.map _ ?_ h
    intro a b hab hk
    apply hab
    obtain ⟨e1, t1, s1⟩ := updKeys row a
    obtain ⟨e2, t2, s2⟩ := updKeys row b
    exact ⟨by rw [← e1, ← e2]; exact hk.1, by rw [← t1, ← t2]; exact hk.2.1,
      by rw [← s1, ← s2]; exact hk.2.2⟩
  · rename_i hany
    unfold WFlocks
    rw [List.pairwise_append]
    refine ⟨h, List.pairwise_singleton _ _, ?_⟩
    intro a ha b hb
    have hb' := List.mem_singleton.mp hb
    subst hb'
    intro hk
    apply hany
    exact List.any_eq_true.mpr
      ⟨a, ha, sameKey_eq_true.mpr ⟨hk.1.symm, hk.2.1.symm, hk.2.2.symm⟩⟩

theorem filter_eq_singleton_of_wf {locks : List TempHold} {t : String} {n : Int}
    {x0 : TempHold} (h : WFlocks locks) (hx0 : x0 ∈ locks) (hk : keyEqB t n x0 = true) :
    locks.filter (keyEqB t n) = [x0] := by
  induction locks with
  | nil => cases hx0
  | cons a l ih =>
    rw [WFlocks, List.pairwise_cons] at h
    rcases List.mem_cons.mp hx0 with rfl | hx0l
    · rw [List.filter_cons_of_pos hk]
      congr 1
      rw [List.filter_eq_nil_iff]
      intro y hy hky
      apply h.1 y hy
      obtain ⟨ea, ta, sa⟩ := keyEqB_eq_true.mp hk
      obtain ⟨ey, ty, sy⟩ := keyEqB_eq_true.mp hky
      exact ⟨ea.trans ey.symm, ta.trans ty.symm, sa.trans sy.symm⟩
    · have hka : ¬keyEqB t n a = true := by
        intro hcon
        obtain ⟨ea, ta, sa⟩ := keyEqB_eq_true.mp hcon
        obtain ⟨e0, t0, s0⟩ := keyEqB_eq_true.mp hk
        exact h.1 x0 hx0l ⟨ea.trans e0.symm, ta.trans t0.symm, sa.trans s0.symm⟩
      rw [List.filter_cons_of_neg hka]
      exact ih h.2 hx0l

theorem filter_map_upd {locks : List TempHold} {row : TempHold} {t : String} {n : Int} :
    (locks.map fun r =>
        if sameKey row r then { r with hold_id := row.hold_id, expires_at := row.expires_at }
        else r).filter (keyEqB t n) =
      (locks.filter (keyEqB t n)).map fun r =>
        if sameKey row r then { r with hold_id := row.hold_id, expires_at := row.expires_at }
        else r := by
  induction locks with
  | nil => rfl
  | cons a l ih =>
    show ((if sameKey row a then _ else a) :: l.map _).filter (keyEqB t n) = _
    by_cases hk : keyEqB t n a = true
    · rw [List.filter_cons_of_pos (by rw [keyEqB_upd]; exact hk),
        List.filter_cons_of_pos hk, List.map_cons, ih]
    · rw [List.filter_cons_of_neg (by rw [keyEqB_upd]; exact hk),
        List.filter_cons_of_neg hk, ih]

theorem upsertLock_filter_self {locks : List TempHold} {t : String} {n : Int}
    {hid : String} {e c : Int} (h : WFlocks locks) :
    ∃ c2, (upsertLock locks ⟨"default", t, n, hid, e, c⟩).filter (keyEqB t n) =
      [⟨"default", t, n, hid, e, c2⟩] := by
  rw [upsertLock]
  split
  · rename_i hany
    obtain ⟨x0, hx0, hsk⟩ := List.any_eq_true.mp hany
    obtain ⟨he, htb, hsn⟩ := sameKey_eq_true.mp hsk
    have hk0 : keyEqB t n x0 = true := keyEqB_eq_true.mpr ⟨he.symm, htb.symm, hsn.symm⟩
    refine ⟨x0.created_at, ?_⟩
    rw [filter_map_upd, filter_eq_singleton_of_wf h hx0 hk0, List.map_cons, List.map_nil,
      if_pos hsk]
    obtain ⟨ev, tb, sn, hi, ex, cr⟩ := x0
    have he' : ev = "default" := he.symm
    have htb' : tb = t := htb.symm
    have hsn' : sn = n := hsn.symm
    subst he'
    subst htb'
    subst hsn'
    rfl
  · rename_i hany
    refine ⟨c, ?_⟩
    rw [List.filter_append]
    have h1 : locks.filter (keyEqB t n) = [] := by
      rw [List.filter_eq_nil_iff]
      intro y hy hky
      apply hany
      obtain ⟨ey, ty, sy⟩ := keyEqB_eq_true.mp hky
      exact List.any_eq_true.mpr ⟨y, hy, sameKey_eq_true.mpr ⟨ey.symm, ty.symm, sy.symm⟩⟩
    rw [h1, List.nil_append, List.filter_cons_of_pos (by simp [keyEqB]), List.filter_nil]

theorem upsertLock_filter_other {locks : List TempHold} {row : TempHold} {t : String}
    {n : Int} (hrow : ¬keyEqB t n row = true) :
    (upsertLock locks row).filter (keyEqB t n) = locks.filter (keyEqB t n) := by
  rw [upsertLock]
  split
  · rw [filter_map_upd]
    have hid2 : ∀ x ∈ locks.filter (keyEqB t n),
        (if sameKey row x then { x with hold_id := row.hold_id, expires_at := row.expires_at }
          else x) = x := by
      intro x hx
      have hkx := (List.mem_filter.mp hx).2
      rw [if_neg ?_]
      intro hsk
      obtain ⟨e1, t1, s1⟩ := sameKey_eq_true.mp hsk
      obtain ⟨e2, t2, s2⟩ := keyEqB_eq_true.mp hkx
      exact hrow (keyEqB_eq_true.mpr ⟨e1.trans e2, t1.trans t2, s1.trans s2⟩)
    exact (List.map_congr_left hid2).trans (List.map_id _)
  · rw [List.filter_append, List.filter_cons_of_neg hrow, List.filter_nil, List.append_nil]

/-- The write loop, flattened to one upsert per resolved seat key. -/
def foldUpsert (locks : List TempHold) (keys : List SeatKey) (hid : String)
    (e now : Int) : List TempHold :=
  keys.foldl (fun acc k => upsertLock acc ⟨"default", k.tableId, k.seatNo, hid, e, now⟩) locks

theorem writeGroups_cons (locks : List TempHold) (g : HoldGroup) (gs : List HoldGroup)
    (hid : String) (e now : Int) :
    writeGroups locks (g :: gs) hid e now =
      writeGroups
        (if g.full then upsertLock locks ⟨"default", g.tableId, 0, hid, e, now⟩
          else g.seats.foldl
            (fun acc2 n => upsertLock acc2 ⟨"default", g.tableId, n, hid, e, now⟩) locks)
        gs hid e now := rfl

theorem foldUpsert_append (locks : List TempHold) (a b : List SeatKey) (hid : String)
    (e now : Int) :
    foldUpsert locks (a ++ b) hid e now = foldUpsert (foldUpsert locks a hid e now) b hid e now :=
  List.foldl_append _ _ _ _

theorem writeGroups_eq_fold : ∀ (groups : List HoldGroup) (locks : List TempHold)
    (hid : String) (e now : Int),
    writeGroups locks groups hid e now = foldUpsert locks (resolvedKeys groups) hid e now := by
  intro groups
  induction groups with
  | nil => intro locks hid e now; rfl
  | cons g gs ih =>
    intro locks hid e now
    by_cases hg : g.full
    · have h1 : resolvedKeys (g :: gs) = ⟨g.tableId, 0⟩ :: resolvedKeys gs := by
        show (g :: gs).flatMap _ = _
        rw [List.flatMap_cons, if_pos hg]
        rfl
      rw [writeGroups_cons, if_pos hg, h1, ih]
      rfl
    · have h1 : resolvedKeys (g :: gs) =
          (g.seats.map fun n => (⟨g.tableId, n⟩ : SeatKey)) ++ resolvedKeys gs := by
        show (g :: gs).flatMap _ = _
        rw [List.flatMap_cons, if_neg hg]
        rfl
      rw [writeGroups_cons, if_neg hg, h1, ih, foldUpsert_append]
      congr 1
      rw [foldUpsert, List.foldl_map]

theorem foldUpsert_wf {hid : String} {e now : Int} :
    ∀ {keys : List SeatKey} {locks : List TempHold},
      WFlocks locks → WFlocks (foldUpsert locks keys hid e now) := by
  intro keys
  induction keys with
  | nil => intro locks h; exact h
  | cons k ks ih => intro locks h; exact ih (upsertLock_wf h)

theorem foldUpsert_untouched {hid : String} {e now : Int} {t : String} {n : Int} :
    ∀ {keys : List SeatKey} {locks : List TempHold},
      (∀ k ∈ keys, ¬(k.tableId = t ∧ k.seatNo = n)) →
      (foldUpsert locks keys hid e now).filter (keyEqB t n) = locks.filter (keyEqB t n) := by
  intro keys
  induction keys with
  | nil => intro locks _; rfl
  | cons k ks ih =>
    intro locks h
    show (foldUpsert (upsertLock locks _) ks hid e now).filter _ = _
    rw [ih fun k' hk' => h k' (List.mem_cons_of_mem k hk')]
    apply upsertLock_filter_other
    intro hcon
    obtain ⟨_, htb, hsn⟩ := keyEqB_eq_true.mp hcon
    exact h k (List.mem_cons_self k ks) ⟨htb, hsn⟩

theorem foldUpsert_mem {hid : String} {e now : Int} :
    ∀ {keys : List SeatKey} {locks : List TempHold} {k : SeatKey},
      WFlocks locks →
      List.Pairwise (fun a b : SeatKey => ¬(a.tableId = b.tableId ∧ a.seatNo = b.seatNo)) keys →
      k ∈ keys →
      ∃ c, (foldUpsert locks keys hid e now).filter (keyEqB k.tableId k.seatNo) =
        [⟨"default", k.tableId, k.seatNo, hid, e, c⟩] := by
  intro keys
  induction keys with
  | nil => intro locks k _ _ hk; cases hk
  | cons k0 ks ih =>
    intro locks k hwf hnd hk
    rw [List.pairwise_cons] at hnd
    by_cases hmem : k ∈ ks
    · exact ih (upsertLock_wf hwf) hnd.2 hmem
    · have hk0 : k = k0 := by
        rcases List.mem_cons.mp hk with rfl | h
        · rfl
        · exact absurd h hmem
      subst hk0
      obtain ⟨c2, hc2⟩ := upsertLock_filter_self hwf
      refine ⟨c2, ?_⟩
      show (foldUpsert (upsertLock locks ⟨"default", k.tableId, k.seatNo, hid, e, now⟩)
        ks hid e now).filter _ = _
      rw [foldUpsert_untouched fun k' hk' hcon => hnd.1 k' hk' ⟨hcon.1.symm, hcon.2.symm⟩]
      exact hc2

theorem mem_group_resolved {g : HoldGroup} {x : SeatKey}
    (h : x ∈ (if g.full then [(⟨g.tableId, 0⟩ : SeatKey)]
      else g.seats.map fun n => ⟨g.tableId, n⟩)) :
    x.tableId = g.tableId := by
  by_cases hf : g.full
  · rw [if_pos hf] at h
    rw [List.mem_singleton.mp h]
  · rw [if_neg hf] at h
    obtain ⟨n, _, rfl⟩ := List.mem_map.mp h
    rfl

theorem map_tableId_normalizeGroups (seats : List SeatKey) :
    (normalizeGroups seats).map (fun g => g.tableId) = tablesIn seats := by
  rw [normalizeGroups, List.map_map]
  exact (List.map_congr_left fun t _ => groupFor_tableId t seats).trans (List.map_id _)

theorem resolvedKeys_distinct (seats : List SeatKey) :
    List.Pairwise (fun a b : SeatKey => ¬(a.tableId = b.tableId ∧ a.seatNo = b.seatNo))
      (resolvedKeys (normalizeGroups seats)) := by
  rw [resolvedKeys, List.pairwise_flatMap]
  constructor
  · intro g hg
    obtain ⟨t, ht, rfl⟩ := mem_normalizeGroups.mp hg
    by_cases hf : (groupFor t seats).full
    · rw [if_pos hf]
      exact List.pairwise_singleton _ _
    · rw [if_neg hf]
      rw [List.pairwise_map]
      have hcond : ¬((0 : Int) ∈ sortedDedup (seatNumsFor t seats) ∨
          sortedDedup (seatNumsFor t seats) = seq1to10) := by
        intro hc
        exact hf ((groupFor_full_iff t seats).mpr hc)
      have hseats : (groupFor t seats).seats =
          (sortedDedup (seatNumsFor t seats)).filter (fun n => decide (0 < n)) := by
        rw [groupFor, if_neg hcond]
      rw [hseats]
      have hsorted := (sorted_sortedDedup (seatNumsFor t seats)).filter
        (fun n => decide (0 < n))
      exact hsorted.imp fun hab hcon => absurd hcon.2 (ne_of_lt hab)
  · have h2 := nodup_tablesIn seats
    rw [← map_tableId_normalizeGroups seats] at h2
    rw [List.Nodup, List.pairwise_map] at h2
    refine h2.imp ?_
    intro g1 g2 hne x hx y hy hcon
    exact hne ((mem_group_resolved hx).symm.trans (hcon.1.trans (mem_group_resolved hy)))

theorem scanGroups_ok {st : Store} {now : Int} {o : Option String} :
    ∀ {gs : List HoldGroup},
      (∀ g ∈ gs, checkGroup st now o g = .ok) → scanGroups st now o gs = .ok := by
  intro gs
  induction gs with
  | nil => intro _; rfl
  | cons g gs ih =>
    intro h
    show (match checkGroup st now o g with
      | .ok => scanGroups st now o gs
      | r => r) = .ok
    rw [h g (List.mem_cons_self g gs)]
    exact ih fun g' hg' => h g' (List.mem_cons_of_mem g hg')

/-- C3: a request that passes validation and whose groups all check
conflict-free succeeds, answering the effective hold id (the supplied
one when present and non-empty, the generated one otherwise), the
resolved seat keys (seat 0 per full group, each positive seat per
partial group) and the expiry in epoch seconds; in the resulting
store (with a unique-key-respecting initial store) exactly one
`seat_locks` row exists per resolved key, carrying that hold id and
`expires_at = now + ttlSec·1000`, while `done_seatlocks` is
untouched. -/
theorem requestHold_success_spec :
    ∀ (st : Store) (now : Int) (seats : List SeatKey) (ttlSec : Int)
      (holdId : Option String) (genId : String),
      seats ≠ [] → 0 < ttlSec →
      (∀ g ∈ normalizeGroups seats, checkGroup st now holdId g = .ok) →
      WFlocks st.seat_locks →
      ∃ st', requestHold st now seats ttlSec holdId genId =
          (.success (effHoldId holdId genId) (resolvedKeys (normalizeGroups seats))
            ((now + ttlSec * 1000) / 1000), st') ∧
        st'.done_seatlocks = st.done_seatlocks ∧
        WFlocks st'.seat_locks ∧
        (∀ k ∈ resolvedKeys (normalizeGroups seats), ∃ c,
          st'.seat_locks.filter (keyEqB k.tableId k.seatNo) =
            [⟨"default", k.tableId, k.seatNo, effHoldId holdId genId,
              now + ttlSec * 1000, c⟩]) := by
  intro st now seats ttl o gen hs ht hok hwf
  refine ⟨{ st with seat_locks := (writeGroups st.seat_locks (normalizeGroups seats)
      (effHoldId o gen) (now + ttl * 1000) now) }, ?_, rfl, ?_, ?_⟩
  · rw [requestHold_eq_of_scan st now seats ttl o gen hs ht, scanGroups_ok hok]
  · show WFlocks (writeGroups st.seat_locks (normalizeGroups seats)
      (effHoldId o gen) (now + ttl * 1000) now)
    rw [writeGroups_eq_fold]
    exact foldUpsert_wf hwf
  · intro k hk
    show ∃ c, (writeGroups st.seat_locks (normalizeGroups seats)
      (effHoldId o gen) (now + ttl * 1000) now).filter (keyEqB k.tableId k.seatNo) = _
    rw [writeGroups_eq_fold]
    exact foldUpsert_mem hwf (resolvedKeys_distinct seats) hk

/-- Witness for C3: a fresh hold on seat (A,1) against the empty
store, with a generated hold id. -/
theorem requestHold_success_spec_witness :
    ∃ st', requestHold ⟨[], []⟩ 0 [⟨"A", 1⟩] 600 none "G" =
        (.success (effHoldId none "G") (resolvedKeys (normalizeGroups [⟨"A", 1⟩]))
          ((0 + 600 * 1000) / 1000), st') ∧
      st'.done_seatlocks = (⟨[], []⟩ : Store).done_seatlocks ∧
      WFlocks st'.seat_locks ∧
      (∀ k ∈ resolvedKeys (normalizeGroups [⟨"A", 1⟩]), ∃ c,
        st'.seat_locks.filter (keyEqB k.tableId k.seatNo) =
          [⟨"default", k.tableId, k.seatNo, effHoldId none "G", 0 + 600 * 1000, c⟩]) :=
  requestHold_success_spec ⟨[], []⟩ 0 [⟨"A", 1⟩] 600 none "G" (by decide) (by decide)
    (by decide) List.Pairwise.nil

/-! ## Claim theorems: promotion -/

/-- A `done_seatlocks` row exists at key `('default', t, n)`. -/
def permKeyPres (perms : List PermAlloc) (t : String) (n : Int) : Prop :=
  ∃ p ∈ perms, p.event_id = "default" ∧ p.table_id = t ∧ p.seat_no = n

/-- Well-formedness guaranteed by the unique constraint of
`done_seatlocks`: no two rows share `(event_id, table_id, seat_no)`. -/
def WFperms (perms : List PermAlloc) : Prop :=
  List.Pairwise
    (fun a b => ¬(a.event_id = b.event_id ∧ a.table_id = b.table_id ∧ a.seat_no = b.seat_no))
    perms

theorem insertDone_pres (perms : List PermAlloc) (oid : Nat) (t : String) (n : Int) :
    permKeyPres (insertDone perms oid t n) t n := by
  rw [insertDone]
  split
  · rename_i hany
    obtain ⟨p, hp, hpp⟩ := List.any_eq_true.mp hany
    simp only [Bool.and_eq_true, beq_iff_eq] at hpp
    exact ⟨p, hp, hpp.1.1, hpp.1.2, hpp.2⟩
  · exact ⟨⟨"default", oid, t, n⟩, List.mem_append.mpr (Or.inr (List.mem_singleton.mpr rfl)),
      rfl, rfl, rfl⟩

theorem insertDone_pres_mono {perms : List PermAlloc} {t : String} {n : Int}
    (oid : Nat) (t2 : String) (n2 : Int) (h : permKeyPres perms t n) :
    permKeyPres (insertDone perms oid t2 n2) t n := by
  rw [insertDone]
  split
  · exact h
  · obtain ⟨p, hp, hpp⟩ := h
    exact ⟨p, List.mem_append.mpr (Or.inl hp), hpp⟩

theorem insertDone_of_pres {perms : List PermAlloc} {oid : Nat} {t : String} {n : Int}
    (h : permKeyPres perms t n) : insertDone perms oid t n = perms := by
  rw [insertDone, if_pos]
  obtain ⟨p, hp, he, ht, hn⟩ := h
  exact List.any_eq_true.mpr ⟨p, hp, by simp [he, ht, hn]⟩

theorem seatPhase_pres_mono {t : String} {n : Int} {oid : Nat} :
    ∀ {items : List OrderItem} {perms : List PermAlloc},
      permKeyPres perms t n → permKeyPres (seatPhase perms oid items) t n := by
  intro items
  induction items with
  | nil => intro perms h; exact h
  | cons it rest ih =>
    intro perms h
    show permKeyPres (seatPhase (if isSeatItem it then _ else perms) oid rest) t n
    by_cases hi : isSeatItem it
    · rw [if_pos hi]
      exact ih (insertDone_pres_mono _ _ _ h)
    · rw [if_neg hi]
      exact ih h

theorem vipPhase_pres_mono {t : String} {n : Int} {oid : Nat} :
    ∀ {vips : List String} {perms : List PermAlloc},
      permKeyPres perms t n → permKeyPres (vipPhase perms oid vips) t n := by
  intro vips
  induction vips with
  | nil => intro perms h; exact h
  | cons v rest ih =>
    intro perms h
    exact ih (insertDone_pres_mono _ _ _ h)

theorem seatPhase_item_pres {oid : Nat} :
    ∀ {items : List OrderItem} {perms : List PermAlloc},
      ∀ it ∈ items, isSeatItem it = true →
        permKeyPres (seatPhase perms oid items) (it.table_id.getD "") (it.seat_no.getD 0) := by
  intro items
  induction items with
  | nil => intro perms it hit; cases hit
  | cons it0 rest ih =>
    intro perms it hit hseat
    rcases List.mem_cons.mp hit with rfl | hmem
    · show permKeyPres (seatPhase (if isSeatItem it then _ else perms) oid rest) _ _
      rw [if_pos hseat]
      exact seatPhase_pres_mono (insertDone_pres perms oid _ _)
    · exact ih it hmem hseat

theorem vipPhase_vip_pres {oid : Nat} :
    ∀ {vips : List String} {perms : List PermAlloc},
      ∀ t ∈ vips, permKeyPres (vipPhase perms oid vips) t 0 := by
  intro vips
  induction vips with
  | nil => intro perms t ht; cases ht
  | cons v rest ih =>
    intro perms t ht
    rcases List.mem_cons.mp ht with rfl | hmem
    · show permKeyPres (vipPhase (insertDone perms oid t 0) oid rest) t 0
      exact vipPhase_pres_mono (insertDone_pres perms oid t 0)
    · exact ih t hmem

theorem seatPhase_id_of_pres {oid : Nat} :
    ∀ {items : List OrderItem} {perms : List PermAlloc},
      (∀ it ∈ items, isSeatItem it = true →
        permKeyPres perms (it.table_id.getD "") (it.seat_no.getD 0)) →
      seatPhase perms oid items = perms := by
  intro items
  induction items with
  | nil => intro perms _; rfl
  | cons it0 rest ih =>
    intro perms h
    show seatPhase (if isSeatItem it0 then _ else perms) oid rest = perms
    by_cases hi : isSeatItem it0
    · rw [if_pos hi, insertDone_of_pres (h it0 (List.mem_cons_self it0 rest) hi)]
      exact ih fun it hit hs => h it (List.mem_cons_of_mem it0 hit) hs
    · rw [if_neg hi]
      exact ih fun it hit hs => h it (List.mem_cons_of_mem it0 hit) hs

theorem vipPhase_id_of_pres {oid : Nat} :
    ∀ {vips : List String} {perms : List PermAlloc},
      (∀ t ∈ vips, permKeyPres perms t 0) → vipPhase perms oid vips = perms := by
  intro vips
  induction vips with
  | nil => intro perms _; rfl
  | cons v rest ih =>
    intro perms h
    show vipPhase (insertDone perms oid v 0) oid rest = perms
    rw [insertDone_of_pres (h v (List.mem_cons_self v rest))]
    exact ih fun t ht => h t (List.mem_cons_of_mem v ht)

theorem insertDone_wf {perms : List PermAlloc} {oid : Nat} {t : String} {n : Int}
    (h : WFperms perms) : WFperms (insertDone perms oid t n) := by
  rw [insertDone]
  split
  · exact h
  · rename_i hany
    unfold WFperms
    rw [List.pairwise_append]
    refine ⟨h, List.pairwise_singleton _ _, ?_⟩
    intro a ha b hb
    have hb' := List.mem_singleton.mp hb
    subst hb'
    intro hk
    apply hany
    exact List.any_eq_true.mpr ⟨a, ha, by simp [hk.1, hk.2.1, hk.2.2]⟩

theorem seatPhase_wf {oid : Nat} :
    ∀ {items : List OrderItem} {perms : List PermAlloc},
      WFperms perms → WFperms (seatPhase perms oid items) := by
  intro items
  induction items with
  | nil => intro perms h; exact h
  | cons it rest ih =>
    intro perms h
    show WFperms (seatPhase (if isSeatItem it then _ else perms) oid rest)
    by_cases hi : isSeatItem it
    · rw [if_pos hi]
      exact ih (insertDone_wf h)
    · rw [if_neg hi]
      exact ih h

theorem vipPhase_wf {oid : Nat} :
    ∀ {vips : List String} {perms : List PermAlloc},
      WFperms perms → WFperms (vipPhase perms oid vips) := by
  intro vips
  induction vips with
  | nil => intro perms h; exact h
  | cons v rest ih =>
    intro perms h
    exact ih (insertDone_wf h)

theorem store_eq {a b : Store} (h1 : a.seat_locks = b.seat_locks)
    (h2 : a.done_seatlocks = b.done_seatlocks) : a = b := by
  cases a
  cases b
  simp only [Store.mk.injEq]
  exact ⟨h1, h2⟩

/-- C4: `promote` is idempotent — a second run with the same order
changes neither the permanent allocations (every insert hits an
existing `(eventId, tableId, seatNo)` key and is a no-op, and the
model is total, so nothing errors) nor the lock table, hence no
duplicate PermanentAllocation rows; after a run no `seat_locks` row
with the order's (truthy) hold id survives, whatever its table or
seat; and unique-key well-formedness of `done_seatlocks` is
preserved. -/
theorem promote_spec :
    ∀ (st : Store) (oid : Nat) (hold : Option String) (items : List OrderItem),
      promote (promote st oid hold items) oid hold items = promote st oid hold items ∧
      (∀ h, hold = some h → h ≠ "" →
        ∀ r ∈ (promote st oid hold items).seat_locks, r.hold_id ≠ h) ∧
      (WFperms st.done_seatlocks → WFperms (promote st oid hold items).done_seatlocks) := by
  intro st oid hold items
  have hdone : ∀ s : Store, (promote s oid hold items).done_seatlocks =
      vipPhase (seatPhase s.done_seatlocks oid items) oid
        ((items.filter isVipItem).map fun it => it.table_id.getD "") := fun s => rfl
  have hperm : (promote (promote st oid hold items) oid hold items).done_seatlocks =
      (promote st oid hold items).done_seatlocks := by
    rw [hdone]
    have hseat : seatPhase (promote st oid hold items).done_seatlocks oid items =
        (promote st oid hold items).done_seatlocks := by
      apply seatPhase_id_of_pres
      intro it hit hs
      rw [hdone]
      exact vipPhase_pres_mono (seatPhase_item_pres it hit hs)
    have hvip : vipPhase (promote st oid hold items).done_seatlocks oid
        ((items.filter isVipItem).map fun it => it.table_id.getD "") =
        (promote st oid hold items).done_seatlocks := by
      apply vipPhase_id_of_pres
      intro t ht
      rw [hdone]
      exact vipPhase_vip_pres t ht
    rw [hseat, hvip]
  refine ⟨?_, ?_, ?_⟩
  · refine store_eq ?_ hperm
    cases hold with
    | none => rfl
    | some h =>
      have hl : ∀ s : Store, (promote s oid (some h) items).seat_locks =
          (if h = "" then s.seat_locks else s.seat_locks.filter fun r => r.hold_id != h) :=
        fun s => rfl
      rw [hl, hl]
      by_cases he : h = ""
      · simp only [if_pos he]
      · simp only [if_neg he]
        exact List.filter_eq_self.mpr fun r hr => (List.mem_filter.mp hr).2
  · intro h hh hne r hr
    subst hh
    have hl : (promote st oid (some h) items).seat_locks =
        (if h = "" then st.seat_locks else st.seat_locks.filter fun r => r.hold_id != h) := rfl
    rw [hl, if_neg hne] at hr
    have hb := (List.mem_filter.mp hr).2
    simpa using hb
  · intro hwf
    rw [hdone]
    exact vipPhase_wf (seatPhase_wf hwf)

/-- Witness for C4: a seat item and a vip item promoted over a store
holding the order's temporary hold. -/
theorem promote_spec_witness :
    (promote (promote ⟨[⟨"default", "A", 1, "H1", 50, 0⟩], []⟩ 7 (some "H1")
        [⟨"seat", some "A", some 1⟩, ⟨"vipTable", some "B", none⟩]) 7 (some "H1")
        [⟨"seat", some "A", some 1⟩, ⟨"vipTable", some "B", none⟩] =
      promote ⟨[⟨"default", "A", 1, "H1", 50, 0⟩], []⟩ 7 (some "H1")
        [⟨"seat", some "A", some 1⟩, ⟨"vipTable", some "B", none⟩]) ∧
    (∀ r ∈ (promote ⟨[⟨"default", "A", 1, "H1", 50, 0⟩], []⟩ 7 (some "H1")
        [⟨"seat", some "A", some 1⟩, ⟨"vipTable", some "B", none⟩]).seat_locks,
      r.hold_id ≠ "H1") ∧
    WFperms (promote ⟨[⟨"default", "A", 1, "H1", 50, 0⟩], []⟩ 7 (some "H1")
        [⟨"seat", some "A", some 1⟩, ⟨"vipTable", some "B", none⟩]).done_seatlocks := by
  have h := promote_spec ⟨[⟨"default", "A", 1, "H1", 50, 0⟩], []⟩ 7 (some "H1")
    [⟨"seat", some "A", some 1⟩, ⟨"vipTable", some "B", none⟩]
  exact ⟨h.1, h.2.1 "H1" rfl (by decide), h.2.2 List.Pairwise.nil⟩
